import Mathlib

/-!
Verification development for a disk-resident chained hash index over a
line-oriented CSV record store.

The embedding models, from the C sources:
  * `limpiar_texto`, the builder's key-cleaning routine;
  * the builder's `strtok`-based 4th-column key extraction;
  * `csv_get_column`, the reader's quote-aware CSV column extractor;
  * `ci_strcasestr`, the case-insensitive substring test (as a Bool);
  * `build_index`, which writes a header, a bucket table and an
    append-only entry region (entries chained newest-first per bucket);
  * `search_by_keyword`, the CLI reader (exact / substring mode, result
    cap 50);
  * `search_by_title_and_update`, the worker reader (substring match,
    optional column-12 filter, bounded response buffer).

Machine details kept by the model: byte offsets of entries in the index
file (header 24 bytes, bucket slots 8 bytes, entries 272 bytes on the
LP64 layout the sources compile to), the KEY_SIZE-1 truncation of stored
keys, the -1 empty-chain sentinel, and the response-buffer byte
accounting of the worker.  File content is modelled as a list of lines
(each line shorter than the 4096/8192-byte read buffers, newline
terminated, NUL-free); index-file reads at offsets that are not valid
entry offsets are modelled as failed reads.
-/

/-- Strings are modelled as lists of characters (C byte strings without
the terminating NUL). -/
abbrev Str := List Char

/-- N_BUCKETS from index.h. -/
def N_BUCKETS : Nat := 1000

/-- KEY_SIZE from index.h. -/
def KEY_SIZE : Nat := 256

/-- RANGE (CLI reader) and BUCKET_RANGE (worker): probe-window radius. -/
def RANGE : Nat := 12

/-- MAX_RESULTS from the worker; the CLI reader hard-codes the same 50. -/
def MAX_RESULTS : Nat := 50

/-- Size of the worker Response payload buffer (common.h). -/
def RESPONSE_SIZE : Nat := 2048

/-- sizeof(IndexHeader) on the LP64 layout: int + padding + two longs. -/
def HDR_SIZE : Nat := 24

/-- sizeof(BucketDisk): one long. -/
def BUCKET_SIZE : Nat := 8

/-- sizeof(EntryDisk): char[256] + two longs. -/
def ENTRY_SIZE : Nat := 272

/-- Byte offset where the entry region starts: header plus bucket table. -/
def entriesBase : Nat := HDR_SIZE + BUCKET_SIZE * N_BUCKETS

/-- Lowercasing as C tolower in the POSIX locale: only ASCII A-Z move. -/
def c_tolower (c : Char) : Char :=
  if 'A' ≤ c ∧ c ≤ 'Z' then Char.ofNat (c.toNat + 32) else c

/-- C isspace in the POSIX locale. -/
def c_isspace (c : Char) : Bool :=
  c = ' ' || c = '\t' || c = '\n' || c = '\x0b' || c = '\x0c' || c = '\r'

/-- strcasecmp(a, b) == 0: the two strings are equal after lowercasing. -/
def caseEq (a b : Str) : Bool :=
  a.map c_tolower == b.map c_tolower

/-- strncasecmp(p, needle, needle.length) == 0 with needle.length ≤ length
of p: the needle is a case-insensitive prefix of p. -/
def ci_pref (needle p : Str) : Bool :=
  needle.length ≤ p.length &&
    (p.take needle.length).map c_tolower == needle.map c_tolower

/-- Scanning loop of ci_strcasestr: try every suffix of the haystack. -/
def ci_scan (needle : Str) : Str → Bool
  | [] => false
  | p@(_ :: t) =>
      if p.length < needle.length then false
      else if ci_pref needle p then true
      else ci_scan needle t

/-- ci_strcasestr from the sources, as the Bool "a match was found"
(the C function returns a pointer, NULL meaning no match).  An empty
needle matches every haystack. -/
def ci_strcasestr (haystack needle : Str) : Bool :=
  if needle.isEmpty then true else ci_scan needle haystack

/-- Drop trailing isspace characters, as the final loop of limpiar_texto
and of trim_inplace. -/
def dropTrailingSpace (s : Str) : Str :=
  (s.reverse.dropWhile c_isspace).reverse

/-- Drop leading isspace characters, as the first loop of trim_inplace. -/
def dropLeadingSpace (s : Str) : Str :=
  s.dropWhile c_isspace

/-- trim_inplace from the worker sources: strip isspace at both ends. -/
def trim_inplace (s : Str) : Str :=
  dropTrailingSpace (dropLeadingSpace s)

/-- limpiar_texto from the builder sources: drop one leading quote if
present, then one trailing quote if present, then trailing whitespace. -/
def limpiar_texto (s : Str) : Str :=
  if s = [] then s
  else
    let s1 := if s.head? = some '"' then s.tail else s
    let s2 := if s1 ≠ [] ∧ s1.getLast? = some '"' then s1.dropLast else s1
    dropTrailingSpace s2

/-- Delimiter set of the builder's strtok(line, ",\n\r"). -/
def strtokDelim (c : Char) : Bool :=
  c = ',' || c = '\n' || c = '\r'

/-- Raw split of a line at strtok delimiters, keeping empty segments. -/
def splitDelims : Str → List Str
  | [] => [[]]
  | c :: t =>
      if strtokDelim c then [] :: splitDelims t
      else
        match splitDelims t with
        | f :: r => (c :: f) :: r
        | [] => [[c]]

/-- strtok token sequence: strtok skips runs of delimiters, so it yields
exactly the nonempty segments. -/
def strtok_tokens (l : Str) : List Str :=
  (splitDelims l).filter (fun t => t ≠ [])

/-- The builder's key extraction (build_index lines 93-101): the 4th
strtok token of the line, absent when there are fewer than four. -/
def strtok_col4 (l : Str) : Option Str :=
  (strtok_tokens l).get? 3

/-- Decoded body of a quoted CSV field: doubled quotes become one quote,
the field ends at the first lone quote (or at end of input). -/
def quotedField : Str → Str
  | [] => []
  | '"' :: '"' :: t => '"' :: quotedField t
  | '"' :: _ => []
  | c :: t => c :: quotedField t

/-- Skip past a quoted field body (csv_get_column's advance branch):
returns the rest of the line after the closing quote. -/
def skipQuoted : Str → Str
  | [] => []
  | '"' :: '"' :: t => skipQuoted t
  | '"' :: t => t
  | _ :: t => skipQuoted t

theorem skipQuoted_length_le : ∀ l : Str, (skipQuoted l).length ≤ l.length := by
  intro l
  induction l using skipQuoted.induct with
  | case1 => simp [skipQuoted]
  | case2 t ih => simp only [skipQuoted]; simp; omega
  | case3 t h => simp [skipQuoted]
  | case4 c t h ih => simp only [skipQuoted, h]; simp; omega

theorem dropWhile_length_le (p : Char → Bool) :
    ∀ l : Str, (l.dropWhile p).length ≤ l.length := by
  intro l
  induction l with
  | nil => simp
  | cons c t ih =>
      by_cases h : p c
      · simp [List.dropWhile, h]; omega
      · simp [List.dropWhile, h]

/-- Characters that terminate an unquoted field scan in csv_get_column. -/
def fieldStop (c : Char) : Bool :=
  c = ',' || c = '\n' || c = '\r'

/-- Column-walking loop of csv_get_column.  `col` is the 1-based ordinal
of the field at the head of the remaining input. -/
def cgcGo (out_sz target : Nat) : Str → Nat → Option Str
  | [], _ => none
  | p@(c :: t), col =>
      if c = '\n' ∨ c = '\r' then none
      else if col = target then
        if c = '"' then some (trim_inplace ((quotedField t).take (out_sz - 1)))
        else some (trim_inplace ((p.takeWhile (fun d => !fieldStop d)).take (out_sz - 1)))
      else
        if c = '"' then
          let rest := skipQuoted t
          if rest.head? = some ',' then cgcGo out_sz target rest.tail (col + 1)
          else cgcGo out_sz target rest col
        else
          let rest := p.dropWhile (fun d => !fieldStop d)
          if rest.head? = some ',' then cgcGo out_sz target rest.tail (col + 1)
          else none
  termination_by l _ => l.length
  decreasing_by
    · have h := skipQuoted_length_le t
      have h2 : (skipQuoted t).tail.length ≤ (skipQuoted t).length := by
        cases skipQuoted t <;> simp
      simp only [List.length_cons]
      omega
    · have h := skipQuoted_length_le t
      simp only [List.length_cons]
      omega
    · subst_vars
      rename_i hhead
      have hhead2 : ((c :: t).dropWhile (fun d => !fieldStop d)).head? = some ',' := hhead
      have h := dropWhile_length_le (fun d => !fieldStop d) (c :: t)
      have hne : (c :: t).dropWhile (fun d => !fieldStop d) ≠ [] := by
        intro hnil
        rw [hnil] at hhead2
        simp at hhead2
      have h2 : ((c :: t).dropWhile (fun d => !fieldStop d)).tail.length + 1 =
          ((c :: t).dropWhile (fun d => !fieldStop d)).length := by
        cases hd : (c :: t).dropWhile (fun d => !fieldStop d)
        · exact absurd hd hne
        · simp
      show ((c :: t).dropWhile (fun d => !fieldStop d)).tail.length < (c :: t).length
      simp only [List.length_cons] at *
      omega

/-- csv_get_column from the worker sources: extract the 1-based
`target`-th comma-separated field of `line` into a buffer of `out_sz`
bytes (so at most out_sz - 1 field characters), with basic quote
support; `none` models the return value 0 (field absent). -/
def csv_get_column (line : Str) (target : Nat) (out_sz : Nat) : Option Str :=
  cgcGo out_sz target line 1

/-- Modelled from the spec: the repository's `hash.c` (`hash_string`) is
not under src/; only its callers are.  Spec §4.1 constrains it to be a
deterministic function from a string to a non-negative integer, shared
verbatim by the builder and every reader, with the concrete mixing left
free.  The development therefore passes the hash as an explicit
parameter `hash : Str → Nat`; `hashLen` below is one concrete
deterministic instance of the contract, used for concrete evaluations. -/
def hashLen (s : Str) : Nat := s.length

/-- IndexHeader from index.h (n_buckets is an int, the offsets longs). -/
structure IndexHeader where
  n_buckets : Int
  offset_buckets : Int
  offset_entries : Int
deriving DecidableEq

/-- EntryDisk from index.h: stored key (at most KEY_SIZE - 1 characters,
the buffer is zeroed before the strncpy), byte offset of the source line
in the record store, byte offset of the next chain entry or -1. -/
structure EntryDisk where
  key : Str
  csv_offset : Nat
  next_entry : Int
deriving DecidableEq

/-- An index file: the header, the bucket table (each slot a
first_entry_offset, -1 meaning empty) and the append-only entry region
in file order. -/
structure IndexFile where
  header : IndexHeader
  buckets : List Int
  entries : List EntryDisk
deriving DecidableEq

/-- Byte offset of the j-th entry of the entry region: entries are
appended at the end of the file, ENTRY_SIZE bytes each. -/
def entryOffset (j : Nat) : Int := (entriesBase : Int) + (ENTRY_SIZE : Int) * j

/-- Which entry, if any, sits at byte offset o of the index file.  Reads
at -1 (the sentinel), before the entry region, unaligned, or past the
end of the file fail, as the corresponding fseek/fread do. -/
def entryIndexOfOffset (o : Int) : Option Nat :=
  if o < (entriesBase : Int) then none
  else
    let d := (o - (entriesBase : Int)).toNat
    if d % ENTRY_SIZE = 0 then some (d / ENTRY_SIZE) else none

/-- Read the EntryDisk stored at byte offset o. -/
def entryAt (es : List EntryDisk) (o : Int) : Option EntryDisk :=
  (entryIndexOfOffset o).bind es.get?

/-- The entries visited by walking a chain from offset o, fuel-bounded.
On every index file this program builds, chain offsets strictly
decrease, so fuel es.length always suffices. -/
def chainList (es : List EntryDisk) : Nat → Int → List EntryDisk
  | 0, _ => []
  | f + 1, o =>
      match entryAt es o with
      | none => []
      | some e => e :: chainList es f e.next_entry

/-- The freshly initialized index file: header with the compile-time
bucket count and layout offsets, N_BUCKETS empty slots, no entries. -/
def initIndex : IndexFile :=
  { header := { n_buckets := N_BUCKETS, offset_buckets := HDR_SIZE,
                offset_entries := entriesBase }
    buckets := List.replicate N_BUCKETS (-1)
    entries := [] }

/-- One iteration of the build loop (build_index lines 90-143): extract
the 4th strtok token as key (skip the line when absent), clean it, hash
the cleaned key, read the target bucket head (a failed read acts as -1),
append an entry holding the KEY_SIZE-1-truncated key, the line's start
offset and the old head, and point the bucket at the new entry. -/
def insertLine (hash : Str → Nat) (idx : IndexFile) (line_start : Nat)
    (line : Str) : IndexFile :=
  match strtok_col4 line with
  | none => idx
  | some tok =>
      let key := limpiar_texto tok
      let h := hash key % N_BUCKETS
      let b := (idx.buckets.get? h).getD (-1)
      let e : EntryDisk := { key := key.take (KEY_SIZE - 1)
                             csv_offset := line_start
                             next_entry := b }
      { idx with
          buckets := idx.buckets.set h (entryOffset idx.entries.length)
          entries := idx.entries ++ [e] }

/-- The build loop over the data lines; `off` is the byte offset at
which the current line starts (each line occupies its characters plus
one newline byte). -/
def buildLoop (hash : Str → Nat) : List Str → Nat → IndexFile → IndexFile
  | [], _, idx => idx
  | l :: ls, off, idx =>
      buildLoop hash ls (off + l.length + 1) (insertLine hash idx off l)

/-- build_index from the sources: fails (returns -1) when the record
store has no lines at all; otherwise skips the header line and streams
the rest through the build loop.  The record store is the list of its
lines, each line newline-terminated on disk. -/
def build_index (hash : Str → Nat) (csv : List Str) : Option IndexFile :=
  match csv with
  | [] => none
  | hdr :: rest => some (buildLoop hash rest (hdr.length + 1) initIndex)

/-- Reading one line of the record store at a byte offset, as
fseek+fgets do: an offset inside a line yields that line's remaining
suffix; an offset past the end of the store fails. -/
def readLineAt : List Str → Nat → Option Str
  | [], _ => none
  | l :: ls, off =>
      if off ≤ l.length then some (l.drop off)
      else readLineAt ls (off - (l.length + 1))

/-- Byte offset at which line i of a line list starts, the list itself
starting at byte offset `off`. -/
def lineOff : List Str → Nat → Nat → Nat
  | [], off, _ => off
  | _ :: _, off, 0 => off
  | l :: ls, off, i + 1 => lineOff ls (off + l.length + 1) i

/-- Home bucket of the CLI reader (search_by_keyword line 177): the hash
of the query modulo the compile-time N_BUCKETS; the header of the opened
index file is never consulted. -/
def skw_home (hash : Str → Nat) (kw : Str) : Nat :=
  hash kw % N_BUCKETS

/-- Key test of the CLI reader: case-insensitive equality in exact mode,
case-insensitive substring containment otherwise. -/
def skw_match (exact : Bool) (entryKey kw : Str) : Bool :=
  if exact then caseEq entryKey kw else ci_strcasestr entryKey kw

/-- Running state of search_by_keyword: matches counted so far, record
lines successfully recovered and printed so far, and whether the
50-match goto FIN was taken. -/
structure SkwState where
  found : Nat
  lines : List Str
  fin : Bool
deriving DecidableEq

/-- Processing of one chain entry by search_by_keyword (lines 211-235):
on a key match the counter always increments (even if the record store
read fails); the record line is recovered when readable; at 50 matches
the search jumps to FIN. -/
def skw_step (csv : List Str) (kw : Str) (exact : Bool) (s : SkwState)
    (e : EntryDisk) : SkwState :=
  if s.fin then s
  else if skw_match exact e.key kw then
    { found := s.found + 1
      lines := match readLineAt csv e.csv_offset with
               | some l => s.lines ++ [l]
               | none => s.lines
      fin := decide (50 ≤ s.found + 1) }
  else s

/-- Chain walk of search_by_keyword: follow next_entry offsets until the
sentinel or an unreadable entry, processing each entry. -/
def skw_chain (es : List EntryDisk) (csv : List Str) (kw : Str)
    (exact : Bool) : Nat → Int → SkwState → SkwState
  | 0, _, s => s
  | f + 1, o, s =>
      if s.fin then s
      else
        match entryAt es o with
        | none => s
        | some e => skw_chain es csv kw exact f e.next_entry
            (skw_step csv kw exact s e)

/-- search_by_keyword from the sources, on an already existing index:
probe the single home bucket in exact mode, or the ±RANGE window of
buckets (clipped to [0, N_BUCKETS)) in substring mode, walking each
bucket's chain. -/
def search_by_keyword (hash : Str → Nat) (idx : IndexFile)
    (csv : List Str) (kw : Str) (exact : Bool) : SkwState :=
  let h := skw_home hash kw
  let offs : List Int :=
    if exact then [0]
    else (List.range (2 * RANGE + 1)).map (fun (k : Nat) => (k : Int) - (RANGE : Int))
  offs.foldl (fun s off =>
      let bi : Int := (h : Int) + off
      if bi < 0 ∨ (N_BUCKETS : Int) ≤ bi then s
      else
        match idx.buckets.get? bi.toNat with
        | none => s
        | some b => skw_chain idx.entries csv kw exact idx.entries.length b s)
    ⟨0, [], false⟩

/-- Bucket count trusted by the worker reader (index.h lines 188-189):
the header's n_buckets, falling back to the compile-time default exactly
when the stored count is non-positive. -/
def worker_nbuckets (h : IndexHeader) : Int :=
  if h.n_buckets ≤ 0 then (N_BUCKETS : Int) else h.n_buckets

/-- Home bucket of the worker reader (index.h line 191): hash of the
query modulo the trusted bucket count. -/
def worker_home (hash : Str → Nat) (h : IndexHeader) (title : Str) : Nat :=
  hash title % (worker_nbuckets h).toNat

/-- Running state of search_by_title_and_update: accepted matches,
bytes used in the response buffer, accepted record lines in order, and
whether the buffer-full goto FINISH_SEARCH was taken. -/
structure WkState where
  found : Nat
  used : Nat
  results : List Str
  finish : Bool
deriving DecidableEq

/-- Processing of one chain entry by search_by_title_and_update (index.h
lines 218-248): substring key match, record recovery, the optional
column-12 filter (an unparsable or unequal column rejects the entry
without counting it), and the buffer append, which stops the whole
search when the line plus a terminating NUL no longer fits.  A line of n
characters occupies n + 1 buffer bytes (its newline). -/
def wk_step (csv : List Str) (title : Str) (upd : Option Str) (sz : Nat)
    (s : WkState) (e : EntryDisk) : WkState :=
  if s.finish then s
  else if ci_strcasestr e.key title then
    match readLineAt csv e.csv_offset with
    | none => s
    | some l =>
        let active := match upd with
                      | none => false
                      | some u => !u.isEmpty
        let pass := if active then
                      match csv_get_column l 12 64 with
                      | none => false
                      | some v => caseEq v (upd.getD [])
                    else true
        if pass then
          if s.used + (l.length + 1) + 1 < sz then
            { found := s.found + 1
              used := s.used + (l.length + 1)
              results := s.results ++ [l]
              finish := false }
          else { s with finish := true }
        else s
  else s

/-- Chain walk of the worker reader: stops at the sentinel, at an
unreadable entry, at the result cap, or once the buffer filled. -/
def wk_chain (es : List EntryDisk) (csv : List Str) (title : Str)
    (upd : Option Str) (sz : Nat) : Nat → Int → WkState → WkState
  | 0, _, s => s
  | f + 1, o, s =>
      if s.finish then s
      else if MAX_RESULTS ≤ s.found then s
      else
        match entryAt es o with
        | none => s
        | some e => wk_chain es csv title upd sz f e.next_entry
            (wk_step csv title upd sz s e)

/-- search_by_title_and_update from index.h, on an already existing
index: read the header, trust its bucket count (with the non-positive
fallback), and walk the ±BUCKET_RANGE window around the home bucket,
collecting accepted record lines into the bounded response buffer. -/
def search_by_title_and_update (hash : Str → Nat) (idx : IndexFile)
    (csv : List Str) (title : Str) (upd : Option Str) (sz : Nat) : WkState :=
  let nb := worker_nbuckets idx.header
  let h := worker_home hash idx.header title
  (List.range (2 * RANGE + 1)).foldl (fun (s : WkState) (k : Nat) =>
      if s.finish then s
      else if MAX_RESULTS ≤ s.found then s
      else
        let bi : Int := (h : Int) + ((k : Int) - (RANGE : Int))
        if bi < 0 ∨ nb ≤ bi then s
        else
          match idx.buckets.get? bi.toNat with
          | none => s
          | some b => wk_chain idx.entries csv title upd sz
              idx.entries.length b s)
    ⟨0, 0, [], false⟩

/-- Fold preservation helper: an invariant preserved by each step is
preserved by the whole fold. -/
theorem foldl_preserve {α β : Type} (P : β → Prop) (f : β → α → β)
    (h : ∀ s a, P s → P (f s a)) :
    ∀ (l : List α) (s : β), P s → P (l.foldl f s) := by
  intro l
  induction l with
  | nil => intro s hs; exact hs
  | cons a t ih => intro s hs; exact ih _ (h s a hs)

/-- Invariant of the CLI search state: the counter never passes the cap,
it is strictly below the cap while FIN was not taken, and at most one
line is recovered per counted match. -/
def SkwInv (s : SkwState) : Prop :=
  s.found ≤ MAX_RESULTS ∧ (s.fin = false → s.found < MAX_RESULTS) ∧
    s.lines.length ≤ s.found

theorem skw_step_inv (csv : List Str) (kw : Str) (exact : Bool)
    (s : SkwState) (e : EntryDisk) (h : SkwInv s) :
    SkwInv (skw_step csv kw exact s e) := by
  obtain ⟨h1, h2, h3⟩ := h
  unfold skw_step SkwInv MAX_RESULTS at *
  by_cases hfin : s.fin
  · simp [hfin]; omega
  · have hff : s.fin = false := by simpa using hfin
    have hlt := h2 hff
    by_cases hm : skw_match exact e.key kw
    · simp [hfin, hm]
      cases hr : readLineAt csv e.csv_offset with
      | none => simp; omega
      | some l => simp; omega
    · simp [hfin, hm]; omega

theorem skw_chain_inv (es : List EntryDisk) (csv : List Str) (kw : Str)
    (exact : Bool) :
    ∀ (f : Nat) (o : Int) (s : SkwState), SkwInv s →
      SkwInv (skw_chain es csv kw exact f o s) := by
  intro f
  induction f with
  | zero => intro o s hs; exact hs
  | succ f ih =>
      intro o s hs
      unfold skw_chain
      by_cases hfin : s.fin
      · simp [hfin]; exact hs
      · simp only [hfin, if_neg]
        cases he : entryAt es o with
        | none => simpa [he] using hs
        | some e =>
            simp only [he, Bool.false_eq_true, if_false]
            exact ih _ _ (skw_step_inv csv kw exact s e hs)

theorem search_by_keyword_inv (hash : Str → Nat) (idx : IndexFile)
    (csv : List Str) (kw : Str) (exact : Bool) :
    SkwInv (search_by_keyword hash idx csv kw exact) := by
  unfold search_by_keyword
  apply foldl_preserve SkwInv
  · intro s off hs
    by_cases hb : ((skw_home hash kw : Int) + off < 0 ∨
        (N_BUCKETS : Int) ≤ (skw_home hash kw : Int) + off)
    · simpa [hb] using hs
    · simp only [hb, if_false]
      cases hg : idx.buckets.get? ((skw_home hash kw : Int) + off).toNat with
      | none => simpa [hg] using hs
      | some b =>
          simp only [hg]
          exact skw_chain_inv idx.entries csv kw exact _ _ _ hs
  · exact ⟨by simp [MAX_RESULTS], by simp [MAX_RESULTS], by simp⟩

/-- Total payload bytes the worker has appended for a list of record
lines: each line plus its newline. -/
def respBytes (ls : List Str) : Nat :=
  (ls.map (fun l => l.length + 1)).sum

theorem respBytes_append (ls : List Str) (l : Str) :
    respBytes (ls ++ [l]) = respBytes ls + (l.length + 1) := by
  simp [respBytes]

/-- Invariant of the worker search state: one counted match per
collected line, exact byte accounting, cap respected. -/
def WkInv (s : WkState) : Prop :=
  s.found = s.results.length ∧ s.used = respBytes s.results ∧
    s.found ≤ MAX_RESULTS

theorem wk_step_inv (csv : List Str) (title : Str) (upd : Option Str)
    (sz : Nat) (s : WkState) (e : EntryDisk) (h : WkInv s)
    (hcap : s.found < MAX_RESULTS) :
    WkInv (wk_step csv title upd sz s e) := by
  obtain ⟨h1, h2, h3⟩ := h
  unfold wk_step WkInv
  by_cases hfin : s.finish
  · simp [hfin]; exact ⟨h1, h2, h3⟩
  · by_cases hm : ci_strcasestr e.key title
    · simp only [hfin, hm, Bool.false_eq_true, if_false, if_true]
      cases hr : readLineAt csv e.csv_offset with
      | none => exact ⟨h1, h2, h3⟩
      | some l =>
          simp only []
          by_cases hp : (if (match upd with
              | none => false
              | some u => !u.isEmpty) = true then
                match csv_get_column l 12 64 with
                | none => false
                | some v => caseEq v (upd.getD [])
              else true) = true
          · simp only [hp, if_true]
            by_cases hroom : s.used + (l.length + 1) + 1 < sz
            · simp only [hroom, if_true]
              refine ⟨?_, ?_, ?_⟩
              · simp [h1]
              · simp [respBytes_append, h2]
              · show s.found + 1 ≤ MAX_RESULTS
                omega
            · simp only [hroom, if_false]
              exact ⟨h1, h2, h3⟩
          · simp only [hp, if_false]
            exact ⟨h1, h2, h3⟩
    · simp [hfin, hm]; exact ⟨h1, h2, h3⟩

theorem wk_chain_inv (es : List EntryDisk) (csv : List Str) (title : Str)
    (upd : Option Str) (sz : Nat) :
    ∀ (f : Nat) (o : Int) (s : WkState), WkInv s →
      WkInv (wk_chain es csv title upd sz f o s) := by
  intro f
  induction f with
  | zero => intro o s hs; exact hs
  | succ f ih =>
      intro o s hs
      unfold wk_chain
      by_cases hfin : s.finish
      · simp [hfin]; exact hs
      · by_cases hcap : MAX_RESULTS ≤ s.found
        · simp [hfin, hcap]; exact hs
        · simp only [hfin, hcap, Bool.false_eq_true, if_false]
          cases he : entryAt es o with
          | none => simpa [he] using hs
          | some e =>
              simp only [he]
              exact ih _ _ (wk_step_inv csv title upd sz s e hs (by omega))

theorem search_by_title_and_update_inv (hash : Str → Nat)
    (idx : IndexFile) (csv : List Str) (title : Str) (upd : Option Str)
    (sz : Nat) :
    WkInv (search_by_title_and_update hash idx csv title upd sz) := by
  unfold search_by_title_and_update
  apply foldl_preserve WkInv
  · intro s k hs
    by_cases hfin : s.finish
    · simpa [hfin] using hs
    · by_cases hcap : MAX_RESULTS ≤ s.found
      · simpa [hfin, hcap] using hs
      · simp only [hfin, hcap, Bool.false_eq_true, if_false]
        by_cases hb : ((worker_home hash idx.header title : Int) +
            ((k : Int) - (RANGE : Int)) < 0 ∨
            worker_nbuckets idx.header ≤
              (worker_home hash idx.header title : Int) + ((k : Int) - (RANGE : Int)))
        · simpa [hb] using hs
        · simp only [hb, if_false]
          cases hg : idx.buckets.get? ((worker_home hash idx.header title : Int) +
              ((k : Int) - (RANGE : Int))).toNat with
          | none => simpa [hg] using hs
          | some b =>
              simp only [hg]
              exact wk_chain_inv idx.entries csv title upd sz _ _ _ hs
  · exact ⟨rfl, rfl, by simp [MAX_RESULTS]⟩

/-- C6: the number of results returned by a search never exceeds the
configured maximum result count (50), for both the CLI reader and the
worker reader, whatever the index file, record store and query. -/
theorem C6_result_cap :
    (∀ (hash : Str → Nat) (idx : IndexFile) (csv : List Str) (kw : Str)
        (exact : Bool),
        (search_by_keyword hash idx csv kw exact).found ≤ MAX_RESULTS ∧
        (search_by_keyword hash idx csv kw exact).lines.length ≤ MAX_RESULTS) ∧
    (∀ (hash : Str → Nat) (idx : IndexFile) (csv : List Str) (title : Str)
        (upd : Option Str) (sz : Nat),
        (search_by_title_and_update hash idx csv title upd sz).found ≤ MAX_RESULTS ∧
        (search_by_title_and_update hash idx csv title upd sz).results.length ≤
          MAX_RESULTS) := by
  constructor
  · intro hash idx csv kw exact
    obtain ⟨h1, _, h3⟩ := search_by_keyword_inv hash idx csv kw exact
    exact ⟨h1, le_trans h3 h1⟩
  · intro hash idx csv title upd sz
    obtain ⟨h1, _, h3⟩ := search_by_title_and_update_inv hash idx csv title upd sz
    exact ⟨h3, by omega⟩

/-- C10: the case-insensitive substring test accepts an empty needle
against every haystack, so the CLI reader's substring-mode key test
accepts every stored key when the query key is empty. -/
theorem C10_empty_needle_matches :
    (∀ hay : Str, ci_strcasestr hay [] = true) ∧
    (∀ ekey : Str, skw_match false ekey [] = true) := by
  constructor
  · intro hay; simp [ci_strcasestr]
  · intro ekey; simp [skw_match, ci_strcasestr]

/-- C8: within the embedding (where the operating system calls that open
and write files succeed), build_index reports failure exactly when the
record store has no lines at all; any nonempty store builds
successfully, whatever its data lines contain — per-line parsing
anomalies are skipped, never escalated. -/
theorem C8_build_failure_modes :
    ∀ (hash : Str → Nat) (csv : List Str),
      build_index hash csv = none ↔ csv = [] := by
  intro hash csv
  cases csv <;> simp [build_index]

theorem C8_build_failure_modes_witness : build_index hashLen [] = none :=
  (C8_build_failure_modes hashLen []).mpr rfl

/-- C4 (amended): a data line whose designated key field is absent
(fewer than four strtok tokens) inserts nothing; but every line with a
present key field inserts exactly one entry — the builder never checks
whether the cleaned key is empty. -/
theorem C4_amended_key_skip :
    ∀ (hash : Str → Nat) (idx : IndexFile) (off : Nat) (l : Str),
      (strtok_col4 l = none → insertLine hash idx off l = idx) ∧
      (∀ tok, strtok_col4 l = some tok →
        (insertLine hash idx off l).entries.length = idx.entries.length + 1) := by
  intro hash idx off l
  constructor
  · intro h; simp [insertLine, h]
  · intro tok h; simp [insertLine, h]

theorem C4_amended_key_skip_witness :
    insertLine hashLen initIndex 0 ['a'] = initIndex :=
  (C4_amended_key_skip hashLen initIndex 0 ['a']).1 (by decide)

/-- The line `a,b,c,""`: its 4th strtok token is the two-character
token `""`, which limpiar_texto cleans to the empty string. -/
def c4line : Str := ['a', ',', 'b', ',', 'c', ',', '"', '"']

/-- C4 counterexample: a data line whose cleaned key is empty still gets
an entry inserted (the claim says such lines insert nothing). -/
theorem C4_counterexample_empty_key_inserted :
    strtok_col4 c4line = some ['"', '"'] ∧
    limpiar_texto ['"', '"'] = [] ∧
    (build_index hashLen [[], c4line]).map (fun I => I.entries.length) = some 1 := by
  constructor
  · decide
  · constructor
    · decide
    · rfl

/-- A header whose stored bucket count differs from the compile-time
N_BUCKETS. -/
def hdr7 : IndexHeader :=
  { n_buckets := 7, offset_buckets := 24, offset_entries := 80 }

/-- C3 counterexample: the CLI reader's home bucket is the hash modulo
the compile-time N_BUCKETS even when the opened file's header stores a
different (positive) bucket count — the claim that every reader uses the
header's count fails for it. -/
theorem C3_counterexample_cli_ignores_header :
    worker_nbuckets hdr7 = 7 ∧
    skw_home (fun _ => 13) [] = 13 ∧
    (fun _ : Str => 13) [] % (worker_nbuckets hdr7).toNat = 6 ∧
    skw_home (fun _ => 13) [] ≠ (fun _ : Str => 13) [] % (worker_nbuckets hdr7).toNat := by
  refine ⟨by decide, by decide, by decide, by decide⟩

/-- C3 (amended): the worker reader trusts the header's bucket count,
falling back to the compile-time default exactly when the stored count
is non-positive; the CLI reader ignores the header entirely — its
result does not depend on the header of the index file it opens. -/
theorem C3_amended_header_trust :
    (∀ h : IndexHeader, 0 < h.n_buckets → worker_nbuckets h = h.n_buckets) ∧
    (∀ h : IndexHeader, h.n_buckets ≤ 0 → worker_nbuckets h = (N_BUCKETS : Int)) ∧
    (∀ (hash : Str → Nat) (hd hd2 : IndexHeader) (bks : List Int)
        (es : List EntryDisk) (csv : List Str) (kw : Str) (exact : Bool),
        search_by_keyword hash ⟨hd, bks, es⟩ csv kw exact =
          search_by_keyword hash ⟨hd2, bks, es⟩ csv kw exact) := by
  refine ⟨?_, ?_, ?_⟩
  · intro h hpos
    unfold worker_nbuckets
    rw [if_neg (by omega)]
  · intro h hnp
    unfold worker_nbuckets
    rw [if_pos hnp]
  · intro hash hd hd2 bks es csv kw exact
    rfl

theorem C3_amended_header_trust_witness :
    worker_nbuckets hdr7 = 7 ∧
    worker_nbuckets { n_buckets := 0, offset_buckets := 24, offset_entries := 80 } =
      (N_BUCKETS : Int) :=
  ⟨C3_amended_header_trust.1 hdr7 (by decide),
   C3_amended_header_trust.2.1 _ (by decide)⟩

/-- Buffer invariant of the worker search: the bytes used so far plus
the terminating NUL always fit in the response buffer. -/
def WkBuf (sz : Nat) (s : WkState) : Prop := s.used + 1 ≤ sz

theorem wk_step_buf (csv : List Str) (title : Str) (upd : Option Str)
    (sz : Nat) (s : WkState) (e : EntryDisk) (h : WkBuf sz s) :
    WkBuf sz (wk_step csv title upd sz s e) := by
  unfold wk_step WkBuf at *
  by_cases hfin : s.finish
  · simpa [hfin] using h
  · by_cases hm : ci_strcasestr e.key title
    · simp only [hfin, hm, Bool.false_eq_true, if_false, if_true]
      cases hr : readLineAt csv e.csv_offset with
      | none => exact h
      | some l =>
          simp only []
          by_cases hp : (if (match upd with
              | none => false
              | some u => !u.isEmpty) = true then
                match csv_get_column l 12 64 with
                | none => false
                | some v => caseEq v (upd.getD [])
              else true) = true
          · simp only [hp, if_true]
            by_cases hroom : s.used + (l.length + 1) + 1 < sz
            · simp only [hroom, if_true]
              show s.used + (l.length + 1) + 1 ≤ sz
              omega
            · simpa [hroom] using h
          · simpa [hp] using h
    · simpa [hfin, hm] using h

theorem wk_chain_buf (es : List EntryDisk) (csv : List Str) (title : Str)
    (upd : Option Str) (sz : Nat) :
    ∀ (f : Nat) (o : Int) (s : WkState), WkBuf sz s →
      WkBuf sz (wk_chain es csv title upd sz f o s) := by
  intro f
  induction f with
  | zero => intro o s hs; exact hs
  | succ f ih =>
      intro o s hs
      unfold wk_chain
      by_cases hfin : s.finish
      · simpa [hfin] using hs
      · by_cases hcap : MAX_RESULTS ≤ s.found
        · simpa [hfin, hcap] using hs
        · simp only [hfin, hcap, Bool.false_eq_true, if_false]
          cases he : entryAt es o with
          | none => simpa [he] using hs
          | some e =>
              simp only [he]
              exact ih _ _ (wk_step_buf csv title upd sz s e hs)

theorem search_by_title_and_update_buf (hash : Str → Nat)
    (idx : IndexFile) (csv : List Str) (title : Str) (upd : Option Str)
    (sz : Nat) (hsz : 1 ≤ sz) :
    WkBuf sz (search_by_title_and_update hash idx csv title upd sz) := by
  unfold search_by_title_and_update
  apply foldl_preserve (WkBuf sz)
  · intro s k hs
    by_cases hfin : s.finish
    · simpa [hfin] using hs
    · by_cases hcap : MAX_RESULTS ≤ s.found
      · simpa [hfin, hcap] using hs
      · simp only [hfin, hcap, Bool.false_eq_true, if_false]
        by_cases hb : ((worker_home hash idx.header title : Int) +
            ((k : Int) - (RANGE : Int)) < 0 ∨
            worker_nbuckets idx.header ≤
              (worker_home hash idx.header title : Int) + ((k : Int) - (RANGE : Int)))
        · simpa [hb] using hs
        · simp only [hb, if_false]
          cases hg : idx.buckets.get? ((worker_home hash idx.header title : Int) +
              ((k : Int) - (RANGE : Int))).toNat with
          | none => simpa [hg] using hs
          | some b =>
              simp only [hg]
              exact wk_chain_buf idx.entries csv title upd sz _ _ _ hs
  · exact hsz

/-- Concrete index file for buffer-exhaustion demonstrations: a header
claiming one bucket, whose single chain holds two entries pointing at
the two one-character record lines of `csv9`. -/
def csv9 : List Str := [['x'], ['y']]

def wIdx9 : IndexFile :=
  { header := { n_buckets := 1, offset_buckets := 24, offset_entries := 8024 }
    buckets := [entryOffset 1]
    entries := [{ key := ['x'], csv_offset := 0, next_entry := -1 },
                { key := ['y'], csv_offset := 2, next_entry := entryOffset 0 }] }

/-- C9: the worker search counts exactly the record lines it appended,
accounts their payload bytes exactly, and never needs more than the
buffer (content plus terminating NUL stays within resp_sz); when the
next accepted line would not fit it stops, so it can return fewer than
MAX_RESULTS results even though more matches remain in the probe window
— as the concrete two-match index shows with a 4-byte buffer. -/
theorem C9_buffer_bound :
    (∀ (hash : Str → Nat) (idx : IndexFile) (csv : List Str) (title : Str)
        (upd : Option Str) (sz : Nat), 1 ≤ sz →
        (search_by_title_and_update hash idx csv title upd sz).found =
          (search_by_title_and_update hash idx csv title upd sz).results.length ∧
        (search_by_title_and_update hash idx csv title upd sz).used =
          respBytes (search_by_title_and_update hash idx csv title upd sz).results ∧
        (search_by_title_and_update hash idx csv title upd sz).used + 1 ≤ sz) ∧
    ((search_by_title_and_update (fun _ => 0) wIdx9 csv9 [] none 4).found = 1 ∧
     (search_by_title_and_update (fun _ => 0) wIdx9 csv9 [] none 100).found = 2 ∧
     (1 : Nat) < MAX_RESULTS) := by
  constructor
  · intro hash idx csv title upd sz hsz
    obtain ⟨h1, h2, _⟩ := search_by_title_and_update_inv hash idx csv title upd sz
    exact ⟨h1, h2, search_by_title_and_update_buf hash idx csv title upd sz hsz⟩
  · refine ⟨by decide, by decide, by decide⟩

theorem C9_buffer_bound_witness :
    (search_by_title_and_update hashLen wIdx9 csv9 [] none 4).used + 1 ≤ 4 :=
  ((C9_buffer_bound.1 hashLen wIdx9 csv9 [] none 4 (by decide)).2.2)


/-- Fold fixpoint helper: a state every step maps to itself is the
result of the whole fold. -/
theorem foldl_fix {α β : Type} (f : β → α → β) (s : β)
    (h : ∀ a, f s a = s) : ∀ l : List α, l.foldl f s = s := by
  intro l
  induction l with
  | nil => rfl
  | cons a t ih => rw [List.foldl_cons, h a]; exact ih

/-- Filter soundness invariant: every collected record line carries a
column-12 value equal (case-insensitively) to the filter value u. -/
def WkFil (u : Str) (s : WkState) : Prop :=
  ∀ l ∈ s.results, ∃ v, csv_get_column l 12 64 = some v ∧ caseEq v u = true

theorem wk_step_fil (csv : List Str) (title : Str) (u : Str) (hu : u ≠ [])
    (sz : Nat) (s : WkState) (e : EntryDisk) (h : WkFil u s) :
    WkFil u (wk_step csv title (some u) sz s e) := by
  have hie : u.isEmpty = false := by
    cases u with
    | nil => exact absurd rfl hu
    | cons a t => rfl
  unfold wk_step
  by_cases hfin : s.finish
  · simpa [hfin] using h
  · by_cases hm : ci_strcasestr e.key title
    · simp only [hfin, hm, Bool.false_eq_true, if_false, if_true]
      cases hr : readLineAt csv e.csv_offset with
      | none => exact h
      | some l =>
          dsimp only
          have hie2 : (!List.isEmpty u) = true := by rw [hie]; rfl
          rw [if_pos hie2]
          cases hc : csv_get_column l 12 64 with
          | none =>
              rw [if_neg (by simp)]
              exact h
          | some v =>
              simp only [Option.getD_some]
              by_cases hq : caseEq v u = true
              · simp only [hq, if_true]
                by_cases hroom : s.used + (l.length + 1) + 1 < sz
                · simp only [hroom, if_true]
                  intro l2 hl2
                  simp only [List.mem_append, List.mem_singleton] at hl2
                  cases hl2 with
                  | inl hmem => exact h l2 hmem
                  | inr heq =>
                      subst heq
                      exact ⟨v, hc, hq⟩
                · simp only [hroom, if_false]
                  exact h
              · simp only [hq, Bool.false_eq_true, if_false]
                exact h
    · simp only [hfin, hm, Bool.false_eq_true, if_false]
      exact h

theorem wk_chain_fil (es : List EntryDisk) (csv : List Str) (title : Str)
    (u : Str) (hu : u ≠ []) (sz : Nat) :
    ∀ (f : Nat) (o : Int) (s : WkState), WkFil u s →
      WkFil u (wk_chain es csv title (some u) sz f o s) := by
  intro f
  induction f with
  | zero => intro o s hs; exact hs
  | succ f ih =>
      intro o s hs
      unfold wk_chain
      by_cases hfin : s.finish
      · simpa [hfin] using hs
      · by_cases hcap : MAX_RESULTS ≤ s.found
        · simpa [hfin, hcap] using hs
        · simp only [hfin, hcap, Bool.false_eq_true, if_false]
          cases he : entryAt es o with
          | none => simpa [he] using hs
          | some e =>
              simp only [he]
              exact ih _ _ (wk_step_fil csv title u hu sz s e hs)

/-- Under a filter value that no readable record line satisfies, one
worker step leaves the state untouched. -/
theorem wk_step_nomatch (csv : List Str) (title : Str) (u : Str)
    (hu : u ≠ []) (sz : Nat)
    (hnm : ∀ (o : Nat) (l : Str), readLineAt csv o = some l →
      ∀ v, csv_get_column l 12 64 = some v → caseEq v u = false)
    (s : WkState) (e : EntryDisk) :
    wk_step csv title (some u) sz s e = s := by
  have hie : u.isEmpty = false := by
    cases u with
    | nil => exact absurd rfl hu
    | cons a t => rfl
  unfold wk_step
  by_cases hfin : s.finish
  · simp [hfin]
  · by_cases hm : ci_strcasestr e.key title
    · simp only [hfin, hm, Bool.false_eq_true, if_false, if_true]
      cases hr : readLineAt csv e.csv_offset with
      | none => rfl
      | some l =>
          dsimp only
          have hie2 : (!List.isEmpty u) = true := by rw [hie]; rfl
          rw [if_pos hie2]
          cases hc : csv_get_column l 12 64 with
          | none => rw [if_neg (by simp)]
          | some v =>
              have hq := hnm _ _ hr v hc
              simp only [Option.getD_some, hq, Bool.false_eq_true, if_false]
    · simp only [hfin, hm, Bool.false_eq_true, if_false]

theorem wk_chain_nomatch (es : List EntryDisk) (csv : List Str)
    (title : Str) (u : Str) (hu : u ≠ []) (sz : Nat)
    (hnm : ∀ (o : Nat) (l : Str), readLineAt csv o = some l →
      ∀ v, csv_get_column l 12 64 = some v → caseEq v u = false) :
    ∀ (f : Nat) (o : Int) (s : WkState),
      wk_chain es csv title (some u) sz f o s = s := by
  intro f
  induction f with
  | zero => intro o s; rfl
  | succ f ih =>
      intro o s
      unfold wk_chain
      by_cases hfin : s.finish
      · simp [hfin]
      · by_cases hcap : MAX_RESULTS ≤ s.found
        · simp [hfin, hcap]
        · simp only [hfin, hcap, Bool.false_eq_true, if_false]
          cases he : entryAt es o with
          | none => rfl
          | some e =>
              simp only [he]
              rw [wk_step_nomatch csv title u hu sz hnm s e, ih]

/-- C7: with a non-empty secondary filter value, every collected result
has a column-12 value case-insensitively equal to the filter, and a
filter value satisfied by no readable record line yields a zero count
and no results, however many entries match the key. -/
theorem C7_secondary_filter :
    ∀ (hash : Str → Nat) (idx : IndexFile) (csv : List Str) (title : Str)
      (u : Str), u ≠ [] → ∀ sz : Nat,
      (∀ l, l ∈ (search_by_title_and_update hash idx csv title (some u) sz).results →
        ∃ v, csv_get_column l 12 64 = some v ∧ caseEq v u = true) ∧
      ((∀ (o : Nat) (l : Str), readLineAt csv o = some l →
          ∀ v, csv_get_column l 12 64 = some v → caseEq v u = false) →
        (search_by_title_and_update hash idx csv title (some u) sz).found = 0 ∧
        (search_by_title_and_update hash idx csv title (some u) sz).results = []) := by
  intro hash idx csv title u hu sz
  constructor
  · show WkFil u (search_by_title_and_update hash idx csv title (some u) sz)
    unfold search_by_title_and_update
    apply foldl_preserve (WkFil u)
    · intro s k hs
      by_cases hfin : s.finish
      · simpa [hfin] using hs
      · by_cases hcap : MAX_RESULTS ≤ s.found
        · simpa [hfin, hcap] using hs
        · simp only [hfin, hcap, Bool.false_eq_true, if_false]
          by_cases hb : ((worker_home hash idx.header title : Int) +
              ((k : Int) - (RANGE : Int)) < 0 ∨
              worker_nbuckets idx.header ≤
                (worker_home hash idx.header title : Int) + ((k : Int) - (RANGE : Int)))
          · simpa [hb] using hs
          · simp only [hb, if_false]
            cases hg : idx.buckets.get? ((worker_home hash idx.header title : Int) +
                ((k : Int) - (RANGE : Int))).toNat with
            | none => simpa [hg] using hs
            | some b =>
                simp only [hg]
                exact wk_chain_fil idx.entries csv title u hu sz _ _ _ hs
    · intro l hl
      simp at hl
  · intro hnm
    have hfix : search_by_title_and_update hash idx csv title (some u) sz =
        ⟨0, 0, [], false⟩ := by
      unfold search_by_title_and_update
      dsimp only
      apply foldl_fix
      intro k
      rw [if_neg (by decide)]
      rw [if_neg (by decide)]
      by_cases hb : ((worker_home hash idx.header title : Int) +
          ((k : Int) - (RANGE : Int)) < 0 ∨
          worker_nbuckets idx.header ≤
            (worker_home hash idx.header title : Int) + ((k : Int) - (RANGE : Int)))
      · rw [if_pos hb]
      · rw [if_neg hb]
        cases hg : idx.buckets.get? ((worker_home hash idx.header title : Int) +
            ((k : Int) - (RANGE : Int))).toNat with
        | none => rfl
        | some b =>
            simp only [hg]
            exact wk_chain_nomatch idx.entries csv title u hu sz hnm _ _ _
    rw [hfix]
    exact ⟨rfl, rfl⟩

theorem C7_secondary_filter_witness :
    (search_by_title_and_update hashLen wIdx9 [] ['t'] (some ['z']) RESPONSE_SIZE).found = 0 :=
  ((C7_secondary_filter hashLen wIdx9 [] ['t'] ['z'] (by decide) RESPONSE_SIZE).2
    (by intro o l hrd v hcgc; simp [readLineAt] at hrd)).1

/-- A chain head offset is valid for an entry region of n entries: the
sentinel, or the byte offset of one of the first n entries. -/
def ValidHead (n : Nat) (o : Int) : Prop :=
  o = -1 ∨ ∃ m, m < n ∧ o = entryOffset m

theorem validHead_mono {n n' : Nat} {o : Int} (h : ValidHead n o)
    (hle : n ≤ n') : ValidHead n' o := by
  cases h with
  | inl h => exact Or.inl h
  | inr h =>
      obtain ⟨m, hm, rfl⟩ := h
      exact Or.inr ⟨m, by omega, rfl⟩

theorem entryIndexOfOffset_entryOffset (m : Nat) :
    entryIndexOfOffset (entryOffset m) = some m := by
  unfold entryIndexOfOffset entryOffset
  have hnn : (0 : Int) ≤ (ENTRY_SIZE : Int) * m := by positivity
  rw [if_neg (by omega)]
  have h2 : ((entriesBase : Int) + (ENTRY_SIZE : Int) * m - (entriesBase : Int)).toNat
      = ENTRY_SIZE * m := by
    have : (entriesBase : Int) + (ENTRY_SIZE : Int) * m - (entriesBase : Int)
        = ((ENTRY_SIZE * m : Nat) : Int) := by push_cast; ring
    rw [this, Int.toNat_natCast]
  simp only [h2]
  rw [if_pos (Nat.mul_mod_right _ _)]
  rw [Nat.mul_div_cancel_left m (by decide : 0 < ENTRY_SIZE)]

theorem entryAt_entryOffset (es : List EntryDisk) (m : Nat) :
    entryAt es (entryOffset m) = es.get? m := by
  unfold entryAt
  rw [entryIndexOfOffset_entryOffset]
  rfl

theorem entryAt_neg_one (es : List EntryDisk) : entryAt es (-1) = none := by
  unfold entryAt entryIndexOfOffset
  rw [if_pos (by decide)]
  rfl

theorem chainList_neg_one (es : List EntryDisk) :
    ∀ f, chainList es f (-1) = [] := by
  intro f
  cases f with
  | zero => rfl
  | succ f => unfold chainList; rw [entryAt_neg_one]

theorem chainList_succ (es : List EntryDisk) (f : Nat) (o : Int) :
    chainList es (f + 1) o =
      match entryAt es o with
      | none => []
      | some x => x :: chainList es f x.next_entry := rfl

theorem entryAt_append_lt (es : List EntryDisk) (e : EntryDisk) (m : Nat)
    (hm : m < es.length) :
    entryAt (es ++ [e]) (entryOffset m) = entryAt es (entryOffset m) := by
  rw [entryAt_entryOffset, entryAt_entryOffset]
  exact List.get?_append hm

/-- Appending one entry to the region does not change any chain whose
head is valid for the old region (all offsets along such a chain stay in
the old region, since chain offsets strictly decrease). -/
theorem chainList_append (es : List EntryDisk) (e : EntryDisk)
    (hnx : ∀ m x, es.get? m = some x → ValidHead m x.next_entry) :
    ∀ (f : Nat) (o : Int), ValidHead es.length o →
      chainList (es ++ [e]) f o = chainList es f o := by
  intro f
  induction f with
  | zero => intro o _; rfl
  | succ f ih =>
      intro o ho
      cases ho with
      | inl h =>
          subst h
          rw [chainList_neg_one, chainList_neg_one]
      | inr h =>
          obtain ⟨m, hm, rfl⟩ := h
          rw [chainList_succ, chainList_succ]
          rw [entryAt_append_lt es e m hm, entryAt_entryOffset]
          cases hg : es.get? m with
          | none => rfl
          | some x =>
              have hnext := hnx m x hg
              show x :: chainList (es ++ [e]) f x.next_entry =
                x :: chainList es f x.next_entry
              rw [ih _ (validHead_mono hnext (by omega))]

/-- Fuel m suffices to walk a chain whose head is valid for the first m
entries: chain offsets strictly decrease, so the walk result is already
stable at that fuel. -/
theorem chainList_fuel (es : List EntryDisk)
    (hnx : ∀ m x, es.get? m = some x → ValidHead m x.next_entry) :
    ∀ (m f : Nat) (o : Int), ValidHead m o → m ≤ f →
      chainList es f o = chainList es m o := by
  intro m
  induction m with
  | zero =>
      intro f o ho _
      cases ho with
      | inl h => subst h; rw [chainList_neg_one]; rfl
      | inr h => obtain ⟨k, hk, _⟩ := h; omega
  | succ m ih =>
      intro f o ho hf
      cases ho with
      | inl h => subst h; rw [chainList_neg_one, chainList_neg_one]
      | inr h =>
          obtain ⟨k, hk, rfl⟩ := h
          cases f with
          | zero => omega
          | succ f =>
              rw [chainList_succ, chainList_succ]
              rw [entryAt_entryOffset]
              cases hg : es.get? k with
              | none => rfl
              | some x =>
                  have hnext := hnx k x hg
                  show x :: chainList es f x.next_entry =
                    x :: chainList es m x.next_entry
                  rw [ih f _ (validHead_mono hnext (by omega)) (by omega),
                      ih m _ (validHead_mono hnext (by omega)) (by omega)]

/-- Structural invariant of index files produced by the builder: the
bucket table has N_BUCKETS slots, every bucket head is the sentinel or
the offset of an existing entry, and every entry's next pointer is the
sentinel or the offset of a strictly earlier entry. -/
structure BuildInv (idx : IndexFile) : Prop where
  blen : idx.buckets.length = N_BUCKETS
  heads : ∀ j o, idx.buckets.get? j = some o → ValidHead idx.entries.length o
  nexts : ∀ m e, idx.entries.get? m = some e → ValidHead m e.next_entry

theorem buildInv_init : BuildInv initIndex := by
  constructor
  · simp [initIndex]
  · intro j o hj
    have hmem : o ∈ List.replicate N_BUCKETS (-1 : Int) := List.get?_mem hj
    have : o = -1 := List.eq_of_mem_replicate hmem
    exact Or.inl this
  · intro m e hm
    simp [initIndex] at hm

theorem get?_some_lt {α : Type} {l : List α} {j : Nat} {x : α}
    (h : l.get? j = some x) : j < l.length := by
  by_contra hc
  push_neg at hc
  rw [List.get?_eq_none.mpr hc] at h
  exact Option.noConfusion h

theorem buildInv_insert (hash : Str → Nat) (idx : IndexFile) (off : Nat)
    (l : Str) (h : BuildInv idx) : BuildInv (insertLine hash idx off l) := by
  unfold insertLine
  cases hs : strtok_col4 l with
  | none => exact h
  | some tok =>
      have hmodlt : hash (limpiar_texto tok) % N_BUCKETS < idx.buckets.length := by
        rw [h.blen]
        exact Nat.mod_lt _ (by decide)
      constructor
      · simpa using h.blen
      · intro j o hj
        simp only [List.length_append, List.length_singleton]
        by_cases hje : hash (limpiar_texto tok) % N_BUCKETS = j
        · subst hje
          rw [List.get?_set_eq_of_lt _ hmodlt] at hj
          cases hj
          exact Or.inr ⟨idx.entries.length, by omega, rfl⟩
        · rw [List.get?_set_ne _ _ hje] at hj
          exact validHead_mono (h.heads j o hj) (by omega)
      · intro m x hm
        by_cases hlt : m < idx.entries.length
        · rw [List.get?_append hlt] at hm
          exact h.nexts m x hm
        · by_cases heq : m = idx.entries.length
          · subst heq
            rw [List.get?_concat_length] at hm
            cases hm
            cases hb : idx.buckets.get? (hash (limpiar_texto tok) % N_BUCKETS) with
            | none => simp only [hb, Option.getD_none]; exact Or.inl rfl
            | some o0 =>
                simp only [hb, Option.getD_some]
                exact h.heads _ o0 hb
          · exfalso
            rw [List.get?_eq_none.mpr (by simp; omega)] at hm
            exact Option.noConfusion hm

/-- The fact recorded for every entry reachable through bucket j: it was
built from some full cleaned key whose hash lands in bucket j, of which
the entry stores the KEY_SIZE-1-truncated prefix. -/
def EntryFromKey (hash : Str → Nat) (j : Nat) (e : EntryDisk) : Prop :=
  ∃ k, e.key = k.take (KEY_SIZE - 1) ∧ hash k % N_BUCKETS = j

/-- Bucket containment invariant: every entry reachable from bucket j's
chain was built from a key hashing to j. -/
def ChainProp (hash : Str → Nat) (idx : IndexFile) : Prop :=
  ∀ j o, idx.buckets.get? j = some o →
    ∀ e, e ∈ chainList idx.entries idx.entries.length o → EntryFromKey hash j e

theorem chainProp_init (hash : Str → Nat) : ChainProp hash initIndex := by
  intro j o hj e he
  simp [initIndex, chainList] at he

theorem insertLine_some (hash : Str → Nat) (idx : IndexFile) (off : Nat)
    (l : Str) (tok : Str) (hs : strtok_col4 l = some tok) :
    insertLine hash idx off l =
      { idx with
          buckets := idx.buckets.set (hash (limpiar_texto tok) % N_BUCKETS)
            (entryOffset idx.entries.length)
          entries := idx.entries ++
            [{ key := (limpiar_texto tok).take (KEY_SIZE - 1)
               csv_offset := off
               next_entry :=
                 (idx.buckets.get? (hash (limpiar_texto tok) % N_BUCKETS)).getD (-1) }] } := by
  unfold insertLine
  rw [hs]

theorem mod_lt_buckets (idx : IndexFile) (hinv : BuildInv idx) (v : Nat) :
    v % N_BUCKETS < idx.buckets.length := by
  rw [hinv.blen]
  exact Nat.mod_lt _ (by decide)

theorem getD_head_valid (idx : IndexFile) (hinv : BuildInv idx) (j : Nat) :
    ValidHead idx.entries.length ((idx.buckets.get? j).getD (-1)) := by
  cases hb : idx.buckets.get? j with
  | none => simp only [hb, Option.getD_none]; exact Or.inl rfl
  | some o => simp only [hb, Option.getD_some]; exact hinv.heads j o hb

/-- The chain of the bucket receiving a new entry: the new entry followed
by the chain that hung from the entry's next pointer. -/
theorem insert_chain_shape (idx : IndexFile) (hinv : BuildInv idx)
    (newE : EntryDisk) (hb : ValidHead idx.entries.length newE.next_entry) :
    chainList (idx.entries ++ [newE]) (idx.entries.length + 1)
        (entryOffset idx.entries.length) =
      newE :: chainList idx.entries idx.entries.length newE.next_entry := by
  rw [chainList_succ, entryAt_entryOffset, List.get?_concat_length]
  show newE :: chainList (idx.entries ++ [newE]) idx.entries.length newE.next_entry =
    newE :: chainList idx.entries idx.entries.length newE.next_entry
  rw [chainList_append idx.entries newE hinv.nexts _ _ hb]

/-- The chain of any bucket whose head predates an append is unchanged
by the append (also at the one-larger fuel). -/
theorem chain_stable_append (idx : IndexFile) (hinv : BuildInv idx)
    (newE : EntryDisk) (o : Int) (ho : ValidHead idx.entries.length o) :
    chainList (idx.entries ++ [newE]) (idx.entries.length + 1) o =
      chainList idx.entries idx.entries.length o := by
  rw [chainList_append idx.entries newE hinv.nexts _ _ ho]
  exact chainList_fuel idx.entries hinv.nexts idx.entries.length _ o ho (by omega)

theorem chainProp_insert (hash : Str → Nat) (idx : IndexFile) (off : Nat)
    (l : Str) (hinv : BuildInv idx) (hc : ChainProp hash idx) :
    ChainProp hash (insertLine hash idx off l) := by
  cases hs : strtok_col4 l with
  | none =>
      unfold insertLine
      rw [hs]
      exact hc
  | some tok =>
      rw [insertLine_some hash idx off l tok hs]
      intro j o hj e he
      dsimp only at hj he
      simp only [List.length_append, List.length_singleton] at he
      by_cases hje : hash (limpiar_texto tok) % N_BUCKETS = j
      · subst hje
        rw [List.get?_set_eq_of_lt _ (mod_lt_buckets idx hinv _)] at hj
        cases hj
        rw [insert_chain_shape idx hinv _ (getD_head_valid idx hinv _)] at he
        cases List.mem_cons.mp he with
        | inl heq =>
            subst heq
            exact ⟨limpiar_texto tok, rfl, rfl⟩
        | inr hmem =>
            cases hb : idx.buckets.get? (hash (limpiar_texto tok) % N_BUCKETS) with
            | none =>
                rw [hb] at hmem
                simp only [Option.getD_none] at hmem
                rw [chainList_neg_one] at hmem
                exact absurd hmem (List.not_mem_nil e)
            | some o0 =>
                rw [hb] at hmem
                simp only [Option.getD_some] at hmem
                exact hc _ o0 hb e hmem
      · rw [List.get?_set_ne _ _ hje] at hj
        rw [chain_stable_append idx hinv _ o (hinv.heads j o hj)] at he
        exact hc j o hj e he

/-- The index holds, in the home bucket of `key`, a reachable entry
storing (the truncation of) `key` and the record-store offset `off`. -/
def HasEntry (hash : Str → Nat) (idx : IndexFile) (key : Str) (off : Nat) : Prop :=
  ∃ o, idx.buckets.get? (hash key % N_BUCKETS) = some o ∧
    ∃ e, e ∈ chainList idx.entries idx.entries.length o ∧
      e.key = key.take (KEY_SIZE - 1) ∧ e.csv_offset = off

theorem hasEntry_insert (hash : Str → Nat) (idx : IndexFile) (off2 : Nat)
    (l : Str) (key : Str) (off : Nat) (hinv : BuildInv idx)
    (hh : HasEntry hash idx key off) :
    HasEntry hash (insertLine hash idx off2 l) key off := by
  cases hs : strtok_col4 l with
  | none =>
      unfold insertLine
      rw [hs]
      exact hh
  | some tok =>
      obtain ⟨o, ho, e, he, hk, hoff⟩ := hh
      rw [insertLine_some hash idx off2 l tok hs]
      by_cases hje : hash (limpiar_texto tok) % N_BUCKETS = hash key % N_BUCKETS
      · refine ⟨entryOffset idx.entries.length, ?_, e, ?_, hk, hoff⟩
        · show (idx.buckets.set (hash (limpiar_texto tok) % N_BUCKETS)
              (entryOffset idx.entries.length)).get? (hash key % N_BUCKETS) = _
          rw [← hje]
          rw [List.get?_set_eq_of_lt _ (mod_lt_buckets idx hinv _)]
        · show e ∈ chainList (idx.entries ++ [_]) (idx.entries ++ [_]).length
            (entryOffset idx.entries.length)
          simp only [List.length_append, List.length_singleton]
          rw [insert_chain_shape idx hinv _ (getD_head_valid idx hinv _)]
          refine List.mem_cons_of_mem _ ?_
          have hb : (idx.buckets.get? (hash (limpiar_texto tok) % N_BUCKETS)).getD (-1)
              = o := by rw [hje, ho]; rfl
          show e ∈ chainList idx.entries idx.entries.length
            ((idx.buckets.get? (hash (limpiar_texto tok) % N_BUCKETS)).getD (-1))
          rw [hb]
          exact he
      · refine ⟨o, ?_, e, ?_, hk, hoff⟩
        · show (idx.buckets.set (hash (limpiar_texto tok) % N_BUCKETS)
              (entryOffset idx.entries.length)).get? (hash key % N_BUCKETS) = _
          rw [List.get?_set_ne _ _ hje]
          exact ho
        · show e ∈ chainList (idx.entries ++ [_]) (idx.entries ++ [_]).length o
          simp only [List.length_append, List.length_singleton]
          rw [chain_stable_append idx hinv _ o (hinv.heads _ o ho)]
          exact he

theorem hasEntry_create (hash : Str → Nat) (idx : IndexFile) (off : Nat)
    (l : Str) (tok : Str) (hinv : BuildInv idx) (hs : strtok_col4 l = some tok) :
    HasEntry hash (insertLine hash idx off l) (limpiar_texto tok) off := by
  rw [insertLine_some hash idx off l tok hs]
  refine ⟨entryOffset idx.entries.length, ?_, ?_⟩
  · show (idx.buckets.set (hash (limpiar_texto tok) % N_BUCKETS)
        (entryOffset idx.entries.length)).get? (hash (limpiar_texto tok) % N_BUCKETS) = _
    rw [List.get?_set_eq_of_lt _ (mod_lt_buckets idx hinv _)]
  · refine ⟨{ key := (limpiar_texto tok).take (KEY_SIZE - 1)
              csv_offset := off
              next_entry :=
                (idx.buckets.get? (hash (limpiar_texto tok) % N_BUCKETS)).getD (-1) },
            ?_, rfl, rfl⟩
    show _ ∈ chainList (idx.entries ++ [_]) (idx.entries ++ [_]).length
      (entryOffset idx.entries.length)
    simp only [List.length_append, List.length_singleton]
    rw [insert_chain_shape idx hinv _ (getD_head_valid idx hinv _)]
    exact List.mem_cons_self _ _

theorem buildLoop_inv (hash : Str → Nat) :
    ∀ (lines : List Str) (off : Nat) (idx : IndexFile),
      BuildInv idx → BuildInv (buildLoop hash lines off idx) := by
  intro lines
  induction lines with
  | nil => intro off idx h; exact h
  | cons l ls ih =>
      intro off idx h
      exact ih _ _ (buildInv_insert hash idx off l h)

theorem buildLoop_chainProp (hash : Str → Nat) :
    ∀ (lines : List Str) (off : Nat) (idx : IndexFile),
      BuildInv idx → ChainProp hash idx →
      ChainProp hash (buildLoop hash lines off idx) := by
  intro lines
  induction lines with
  | nil => intro off idx _ hc; exact hc
  | cons l ls ih =>
      intro off idx h hc
      exact ih _ _ (buildInv_insert hash idx off l h)
        (chainProp_insert hash idx off l h hc)

theorem buildLoop_hasEntry (hash : Str → Nat) (key : Str) (off0 : Nat) :
    ∀ (lines : List Str) (off : Nat) (idx : IndexFile),
      BuildInv idx → HasEntry hash idx key off0 →
      HasEntry hash (buildLoop hash lines off idx) key off0 := by
  intro lines
  induction lines with
  | nil => intro off idx _ hh; exact hh
  | cons l ls ih =>
      intro off idx h hh
      exact ih _ _ (buildInv_insert hash idx off l h)
        (hasEntry_insert hash idx off l key off0 h hh)

theorem buildLoop_creates (hash : Str → Nat) :
    ∀ (lines : List Str) (i : Nat) (hi : i < lines.length) (off : Nat)
      (idx : IndexFile) (tok : Str), BuildInv idx →
      strtok_col4 (lines.get ⟨i, hi⟩) = some tok →
      HasEntry hash (buildLoop hash lines off idx) (limpiar_texto tok)
        (lineOff lines off i) := by
  intro lines
  induction lines with
  | nil => intro i hi; simp at hi
  | cons l ls ih =>
      intro i hi off idx tok hinv hs
      cases i with
      | zero =>
          show HasEntry hash (buildLoop hash ls (off + l.length + 1)
            (insertLine hash idx off l)) (limpiar_texto tok) off
          exact buildLoop_hasEntry hash (limpiar_texto tok) off ls _ _
            (buildInv_insert hash idx off l hinv)
            (hasEntry_create hash idx off l tok hinv hs)
      | succ i =>
          show HasEntry hash (buildLoop hash ls (off + l.length + 1)
            (insertLine hash idx off l)) (limpiar_texto tok)
            (lineOff ls (off + l.length + 1) i)
          exact ih i (by simpa using hi) _ _ tok
            (buildInv_insert hash idx off l hinv) hs

/-- C5 (amended): in every index file built by build_index, every entry
reachable from bucket j's chain whose stored key is shorter than the
KEY_SIZE - 1 capacity (i.e. was not truncated) has a stored key that
hashes, modulo the bucket count, to j.  (The bucket was chosen from the
full cleaned key before truncation, so only untruncated stored keys are
guaranteed to hash back to their bucket.) -/
theorem C5_amended_bucket_containment :
    ∀ (hash : Str → Nat) (csv : List Str) (idx : IndexFile),
      build_index hash csv = some idx →
      ∀ (j : Nat) (o : Int) (e : EntryDisk),
        idx.buckets.get? j = some o →
        e ∈ chainList idx.entries idx.entries.length o →
        e.key.length < KEY_SIZE - 1 →
        hash e.key % N_BUCKETS = j := by
  intro hash csv idx hb j o e hj he hlen
  cases csv with
  | nil => simp [build_index] at hb
  | cons hdr rest =>
      simp only [build_index, Option.some.injEq] at hb
      subst hb
      have hcp := buildLoop_chainProp hash rest (hdr.length + 1) initIndex
        buildInv_init (chainProp_init hash)
      obtain ⟨k, hkey, hh⟩ := hcp j o hj e he
      have hklen : k.length ≤ KEY_SIZE - 1 := by
        by_contra hc
        push_neg at hc
        rw [hkey, List.length_take] at hlen
        omega
      rw [List.take_all_of_le hklen] at hkey
      rw [hkey]
      exact hh

/-- One-record store whose key field is `dog` (hashes to bucket 3 under
hashLen). -/
def csv5w : List Str := [['h'], ['a', ',', 'b', ',', 'c', ',', 'd', 'o', 'g']]

def idx5w : IndexFile := (build_index hashLen csv5w).getD initIndex

def e5w : EntryDisk := { key := ['d', 'o', 'g'], csv_offset := 2, next_entry := -1 }

theorem C5_amended_bucket_containment_witness :
    hashLen e5w.key % N_BUCKETS = 3 :=
  C5_amended_bucket_containment hashLen csv5w idx5w rfl 3 (entryOffset 0) e5w
    (by decide) (by decide) (by decide)

/-- A 300-character key: the builder hashes the full cleaned key (bucket
300 under hashLen) but stores only its first 255 characters. -/
def key300 : Str := List.replicate 300 'a'

def line5c : Str := ['a', ',', 'b', ',', 'c', ','] ++ key300

def csv5c : List Str := [['h'], line5c]

def idx5c : IndexFile := (build_index hashLen csv5c).getD initIndex

set_option maxRecDepth 40000 in
/-- C5 counterexample: after building from a record whose cleaned key
has 300 characters, bucket 300's chain holds an entry whose stored
(truncated) key hashes to bucket 255, not 300 — the claim that every
reachable entry's stored key hashes to its bucket fails. -/
theorem C5_counterexample_truncated_key :
    build_index hashLen csv5c = some idx5c ∧
    idx5c.buckets.get? 300 = some (entryOffset 0) ∧
    (chainList idx5c.entries idx5c.entries.length (entryOffset 0)).map
      (fun e => hashLen e.key % N_BUCKETS) = [255] ∧
    (255 : Nat) ≠ 300 := by
  refine ⟨rfl, by decide, by decide, by decide⟩

theorem skw_step_fin (csv : List Str) (kw : Str) (exact : Bool)
    (s : SkwState) (e : EntryDisk) (h : s.fin = true) :
    skw_step csv kw exact s e = s := by
  unfold skw_step
  rw [if_pos h]

theorem foldl_skw_fin (csv : List Str) (kw : Str) (exact : Bool) :
    ∀ (l : List EntryDisk) (s : SkwState), s.fin = true →
      l.foldl (skw_step csv kw exact) s = s := by
  intro l
  induction l with
  | nil => intro s _; rfl
  | cons a t ih =>
      intro s h
      rw [List.foldl_cons, skw_step_fin csv kw exact s a h]
      exact ih s h

theorem skw_chain_succ (es : List EntryDisk) (csv : List Str) (kw : Str)
    (exact : Bool) (f : Nat) (o : Int) (s : SkwState) :
    skw_chain es csv kw exact (f + 1) o s =
      if s.fin then s
      else
        match entryAt es o with
        | none => s
        | some e => skw_chain es csv kw exact f e.next_entry
            (skw_step csv kw exact s e) := rfl

/-- The CLI chain walk is the fold of the per-entry step over the list
of entries along the chain. -/
theorem skw_chain_eq_foldl (es : List EntryDisk) (csv : List Str)
    (kw : Str) (exact : Bool) :
    ∀ (f : Nat) (o : Int) (s : SkwState),
      skw_chain es csv kw exact f o s =
        (chainList es f o).foldl (skw_step csv kw exact) s := by
  intro f
  induction f with
  | zero => intro o s; rfl
  | succ f ih =>
      intro o s
      rw [skw_chain_succ, chainList_succ]
      by_cases hfin : s.fin
      · rw [if_pos hfin]
        cases he : entryAt es o with
        | none => rfl
        | some e =>
            show s = (e :: chainList es f e.next_entry).foldl (skw_step csv kw exact) s
            rw [List.foldl_cons, skw_step_fin csv kw exact s e hfin,
                foldl_skw_fin csv kw exact _ s hfin]
      · rw [if_neg hfin]
        cases he : entryAt es o with
        | none => rfl
        | some e =>
            show skw_chain es csv kw exact f e.next_entry (skw_step csv kw exact s e) =
              (e :: chainList es f e.next_entry).foldl (skw_step csv kw exact) s
            rw [List.foldl_cons]
            exact ih _ _

theorem skw_step_lines_mono (csv : List Str) (kw : Str) (exact : Bool)
    (s : SkwState) (e : EntryDisk) (ln : Str) (h : ln ∈ s.lines) :
    ln ∈ (skw_step csv kw exact s e).lines := by
  unfold skw_step
  by_cases hfin : s.fin
  · rw [if_pos hfin]; exact h
  · rw [if_neg hfin]
    by_cases hm : skw_match exact e.key kw
    · rw [if_pos hm]
      cases hr : readLineAt csv e.csv_offset with
      | none => exact h
      | some l2 =>
          show ln ∈ s.lines ++ [l2]
          exact List.mem_append_left _ h
    · rw [if_neg hm]; exact h

theorem foldl_skw_lines_mono (csv : List Str) (kw : Str) (exact : Bool)
    (ln : Str) :
    ∀ (l : List EntryDisk) (s : SkwState), ln ∈ s.lines →
      ln ∈ (l.foldl (skw_step csv kw exact) s).lines := by
  intro l
  induction l with
  | nil => intro s h; exact h
  | cons a t ih =>
      intro s h
      rw [List.foldl_cons]
      exact ih _ (skw_step_lines_mono csv kw exact s a ln h)

theorem skw_step_fin_found (csv : List Str) (kw : Str) (exact : Bool)
    (s : SkwState) (a : EntryDisk)
    (hf1 : s.fin = true → s.found = MAX_RESULTS)
    (hf2 : s.fin = false → s.found < MAX_RESULTS) :
    ((skw_step csv kw exact s a).fin = true →
      (skw_step csv kw exact s a).found = MAX_RESULTS) ∧
    ((skw_step csv kw exact s a).fin = false →
      (skw_step csv kw exact s a).found < MAX_RESULTS) := by
  unfold skw_step
  by_cases hfin : s.fin
  · rw [if_pos hfin]; exact ⟨hf1, hf2⟩
  · rw [if_neg hfin]
    have hlt := hf2 (by simpa using hfin)
    by_cases hm : skw_match exact a.key kw
    · rw [if_pos hm]
      constructor
      · intro h
        simp only [] at h
        show s.found + 1 = MAX_RESULTS
        have : 50 ≤ s.found + 1 := of_decide_eq_true h
        unfold MAX_RESULTS at *
        omega
      · intro h
        simp only [] at h
        show s.found + 1 < MAX_RESULTS
        have : ¬ (50 ≤ s.found + 1) := of_decide_eq_false h
        unfold MAX_RESULTS at *
        omega
    · rw [if_neg hm]; exact ⟨hf1, hf2⟩

/-- Walking a list of entries containing a matching, readable entry
either recovers that entry's record line or ends at the result cap. -/
theorem foldl_skw_mem (csv : List Str) (kw : Str) (exact : Bool)
    (e : EntryDisk) (ln : Str)
    (hm : skw_match exact e.key kw = true)
    (hr : readLineAt csv e.csv_offset = some ln) :
    ∀ (l : List EntryDisk) (s : SkwState),
      (s.fin = true → s.found = MAX_RESULTS) →
      (s.fin = false → s.found < MAX_RESULTS) →
      e ∈ l →
      ln ∈ (l.foldl (skw_step csv kw exact) s).lines ∨
        (l.foldl (skw_step csv kw exact) s).found = MAX_RESULTS := by
  intro l
  induction l with
  | nil => intro s _ _ hmem; simp at hmem
  | cons a t ih =>
      intro s hf1 hf2 hmem
      rw [List.foldl_cons]
      rcases List.mem_cons.mp hmem with heq | hmem2
      · subst heq
        by_cases hfin : s.fin
        · right
          rw [skw_step_fin csv kw exact s e hfin,
              foldl_skw_fin csv kw exact t s hfin]
          exact hf1 hfin
        · left
          apply foldl_skw_lines_mono
          unfold skw_step
          rw [if_neg hfin, if_pos hm, hr]
          show ln ∈ s.lines ++ [ln]
          exact List.mem_append_right _ (List.mem_singleton.mpr rfl)
      · obtain ⟨hg1, hg2⟩ := skw_step_fin_found csv kw exact s a hf1 hf2
        exact ih _ hg1 hg2 hmem2

theorem lineOff_shift :
    ∀ (lines : List Str) (b i : Nat), lineOff lines b i = b + lineOff lines 0 i := by
  intro lines
  induction lines with
  | nil => intro b i; simp [lineOff]
  | cons l ls ih =>
      intro b i
      cases i with
      | zero => simp [lineOff]
      | succ i =>
          show lineOff ls (b + l.length + 1) i = b + lineOff ls (0 + l.length + 1) i
          rw [ih (b + l.length + 1) i, ih (0 + l.length + 1) i]
          omega

theorem readLineAt_cons_shift (hd : Str) (ls : List Str) (k : Nat) :
    readLineAt (hd :: ls) (hd.length + 1 + k) = readLineAt ls k := by
  show (if hd.length + 1 + k ≤ hd.length then some (hd.drop (hd.length + 1 + k))
    else readLineAt ls (hd.length + 1 + k - (hd.length + 1))) = readLineAt ls k
  rw [if_neg (by omega)]
  congr 1
  omega

/-- Reading the record store at the byte offset where line i starts
recovers line i. -/
theorem readLineAt_lineOff :
    ∀ (lines : List Str) (i : Nat) (hi : i < lines.length),
      readLineAt lines (lineOff lines 0 i) = some (lines.get ⟨i, hi⟩) := by
  intro lines
  induction lines with
  | nil => intro i hi; simp at hi
  | cons l ls ih =>
      intro i hi
      cases i with
      | zero =>
          show readLineAt (l :: ls) 0 = some l
          show (if 0 ≤ l.length then some (l.drop 0) else _) = some l
          rw [if_pos (by omega), List.drop_zero]
      | succ i =>
          show readLineAt (l :: ls) (lineOff ls (0 + l.length + 1) i) = some (ls.get ⟨i, _⟩)
          rw [lineOff_shift ls (0 + l.length + 1) i]
          have harr : 0 + l.length + 1 + lineOff ls 0 i = l.length + 1 + lineOff ls 0 i := by
            omega
          rw [harr, readLineAt_cons_shift]
          exact ih i (by simpa using hi)

theorem caseEq_refl (a : Str) : caseEq a a = true := by
  simp [caseEq]

/-- C1 (amended): for every key-bearing data line whose cleaned key fits
the stored-key capacity (at most KEY_SIZE - 1 characters), after a
successful build an exact-match search for that key either recovers the
original line among its results or has already collected the full
50-result cap. -/
theorem C1_amended_roundtrip :
    ∀ (hash : Str → Nat) (hdr : Str) (rest : List Str) (i : Nat)
      (hi : i < rest.length) (tok : Str) (idx : IndexFile),
      strtok_col4 (rest.get ⟨i, hi⟩) = some tok →
      (limpiar_texto tok).length ≤ KEY_SIZE - 1 →
      build_index hash (hdr :: rest) = some idx →
      rest.get ⟨i, hi⟩ ∈
          (search_by_keyword hash idx (hdr :: rest) (limpiar_texto tok) true).lines ∨
        (search_by_keyword hash idx (hdr :: rest) (limpiar_texto tok) true).found =
          MAX_RESULTS := by
  intro hash hdr rest i hi tok idx hs hklen hb
  simp only [build_index, Option.some.injEq] at hb
  subst hb
  have hinv : BuildInv (buildLoop hash rest (hdr.length + 1) initIndex) :=
    buildLoop_inv hash rest _ initIndex buildInv_init
  have hhe : HasEntry hash (buildLoop hash rest (hdr.length + 1) initIndex)
      (limpiar_texto tok) (lineOff rest (hdr.length + 1) i) :=
    buildLoop_creates hash rest i hi _ initIndex tok buildInv_init hs
  obtain ⟨o, ho, e, he, hk, hoff⟩ := hhe
  have hek : e.key = limpiar_texto tok := by
    rw [hk]
    exact List.take_all_of_le hklen
  have hmatch : skw_match true e.key (limpiar_texto tok) = true := by
    rw [hek]
    unfold skw_match
    rw [if_pos rfl]
    exact caseEq_refl _
  have hread : readLineAt (hdr :: rest) e.csv_offset = some (rest.get ⟨i, hi⟩) := by
    rw [hoff, lineOff_shift, readLineAt_cons_shift]
    exact readLineAt_lineOff rest i hi
  have hsearch : search_by_keyword hash (buildLoop hash rest (hdr.length + 1) initIndex)
      (hdr :: rest) (limpiar_texto tok) true =
      (chainList (buildLoop hash rest (hdr.length + 1) initIndex).entries
          (buildLoop hash rest (hdr.length + 1) initIndex).entries.length o).foldl
        (skw_step (hdr :: rest) (limpiar_texto tok) true) ⟨0, [], false⟩ := by
    unfold search_by_keyword
    dsimp only
    rw [if_pos rfl, List.foldl_cons, List.foldl_nil]
    have hlt : skw_home hash (limpiar_texto tok) < N_BUCKETS :=
      Nat.mod_lt _ (by decide)
    rw [if_neg (by omega)]
    have htn : ((skw_home hash (limpiar_texto tok) : Int) + 0).toNat =
        skw_home hash (limpiar_texto tok) := by
      simp
    rw [htn]
    have ho2 : (buildLoop hash rest (hdr.length + 1) initIndex).buckets.get?
        (skw_home hash (limpiar_texto tok)) = some o := ho
    rw [ho2]
    exact skw_chain_eq_foldl _ _ _ _ _ _ _
  rw [hsearch]
  exact foldl_skw_mem (hdr :: rest) (limpiar_texto tok) true e (rest.get ⟨i, hi⟩)
    hmatch hread _ ⟨0, [], false⟩ (by intro h; cases h) (by intro _; decide) he

theorem C1_amended_roundtrip_witness :
    (['a', ',', 'b', ',', 'c', ',', 'd', 'o', 'g'] : Str) ∈
        (search_by_keyword hashLen idx5w csv5w
          (limpiar_texto ['d', 'o', 'g']) true).lines ∨
      (search_by_keyword hashLen idx5w csv5w
          (limpiar_texto ['d', 'o', 'g']) true).found = MAX_RESULTS :=
  C1_amended_roundtrip hashLen ['h'] [['a', ',', 'b', ',', 'c', ',', 'd', 'o', 'g']] 0
    (by decide) ['d', 'o', 'g'] idx5w (by decide) (by decide) rfl

set_option maxRecDepth 40000 in
/-- C1 counterexample: the key-bearing line whose cleaned key has 300
characters is never recovered by an exact-match search for that key —
the bucket matches (both sides hash the full key) but the stored key was
truncated to 255 characters, so the case-insensitive equality test
fails and the search returns no results at all. -/
theorem C1_counterexample_truncated_roundtrip :
    strtok_col4 line5c = some key300 ∧
    build_index hashLen csv5c = some idx5c ∧
    (search_by_keyword hashLen idx5c csv5c (limpiar_texto key300) true).lines = [] ∧
    (search_by_keyword hashLen idx5c csv5c (limpiar_texto key300) true).found = 0 := by
  refine ⟨by decide, rfl, by decide, by decide⟩

/-- The reader's field-terminator set and the builder's strtok delimiter
set are literally the same three characters. -/
theorem fieldStop_eq_strtokDelim : fieldStop = strtokDelim := rfl

theorem dropWhile_head_not (p : Char → Bool) :
    ∀ (l : Str) (c : Char) (r : Str), l.dropWhile p = c :: r → p c = false := by
  intro l
  induction l with
  | nil => intro c r h; simp at h
  | cons c0 t ih =>
      intro c r h
      by_cases hp : p c0
      · rw [List.dropWhile_cons_of_pos hp] at h
        exact ih c r h
      · rw [List.dropWhile_cons_of_neg hp] at h
        cases h
        simpa using hp

theorem dropWhile_eq_self_of (p : Char → Bool) (l : Str)
    (h : ∀ c ∈ l, p c = false) : l.dropWhile p = l := by
  cases l with
  | nil => rfl
  | cons c t =>
      rw [List.dropWhile_cons_of_neg]
      rw [h c (List.mem_cons_self c t)]
      simp

theorem dropTrailingSpace_id (s : Str) (h : ∀ c ∈ s, c_isspace c = false) :
    dropTrailingSpace s = s := by
  unfold dropTrailingSpace
  rw [dropWhile_eq_self_of c_isspace s.reverse
    (fun c hc => h c (List.mem_reverse.mp hc))]
  exact List.reverse_reverse s

theorem trim_inplace_id (s : Str) (h : ∀ c ∈ s, c_isspace c = false) :
    trim_inplace s = s := by
  unfold trim_inplace dropLeadingSpace
  rw [dropWhile_eq_self_of c_isspace s h]
  exact dropTrailingSpace_id s h

theorem limpiar_texto_id (s : Str) (hq : '"' ∉ s)
    (hsp : ∀ c ∈ s, c_isspace c = false) : limpiar_texto s = s := by
  unfold limpiar_texto
  by_cases hnil : s = []
  · rw [if_pos hnil]
  · rw [if_neg hnil]
    have hh : ¬ s.head? = some '"' := by
      intro hc
      exact hq (List.mem_of_mem_head? hc)
    rw [if_neg hh]
    dsimp only
    have hl : ¬ (s ≠ [] ∧ s.getLast? = some '"') := by
      intro ⟨_, hc⟩
      exact hq (List.mem_of_mem_getLast? hc)
    rw [if_neg hl]
    exact dropTrailingSpace_id s hsp

theorem splitDelims_ne_nil : ∀ l : Str, splitDelims l ≠ [] := by
  intro l
  cases l with
  | nil => simp [splitDelims]
  | cons c t =>
      unfold splitDelims
      by_cases hd : strtokDelim c
      · simp [hd]
      · simp only [hd]
        cases splitDelims t <;> simp

theorem splitDelims_cons (c : Char) (t : Str) :
    splitDelims (c :: t) =
      if strtokDelim c then [] :: splitDelims t
      else
        match splitDelims t with
        | f :: r => (c :: f) :: r
        | [] => [[c]] := rfl

theorem splitDelims_decomp : ∀ l : Str,
    splitDelims l = (l.takeWhile (fun d => !strtokDelim d)) ::
      (match l.dropWhile (fun d => !strtokDelim d) with
       | [] => []
       | _ :: r => splitDelims r) := by
  intro l
  induction l with
  | nil => rfl
  | cons c t ih =>
      by_cases hd : strtokDelim c
      · rw [splitDelims_cons, if_pos hd,
            List.takeWhile_cons_of_neg (by simp [hd]),
            List.dropWhile_cons_of_neg (by simp [hd])]
      · rw [splitDelims_cons, if_neg hd,
            List.takeWhile_cons_of_pos (by simp [hd]),
            List.dropWhile_cons_of_pos (by simp [hd]), ih]

theorem splitDelims_mem_subset :
    ∀ (l : Str) (f : Str), f ∈ splitDelims l → ∀ c ∈ f, c ∈ l := by
  intro l
  induction l with
  | nil =>
      intro f hf c hc
      simp [splitDelims] at hf
      subst hf
      simp at hc
  | cons a t ih =>
      intro f hf c hc
      unfold splitDelims at hf
      by_cases hd : strtokDelim a
      · rw [if_pos hd] at hf
        cases List.mem_cons.mp hf with
        | inl h => subst h; simp at hc
        | inr h => exact List.mem_cons_of_mem a (ih f h c hc)
      · rw [if_neg hd] at hf
        cases hsp : splitDelims t with
        | nil => exact absurd hsp (splitDelims_ne_nil t)
        | cons f0 r =>
            rw [hsp] at hf
            cases List.mem_cons.mp hf with
            | inl h =>
                subst h
                cases List.mem_cons.mp hc with
                | inl h2 => subst h2; exact List.mem_cons_self c t
                | inr h2 =>
                    refine List.mem_cons_of_mem a (ih f0 ?_ c h2)
                    rw [hsp]
                    exact List.mem_cons_self f0 r
            | inr h =>
                refine List.mem_cons_of_mem a (ih f ?_ c hc)
                rw [hsp]
                exact List.mem_cons_of_mem f0 h

theorem cgcGo_extract (c : Char) (t : Str) (col target sz : Nat)
    (h1 : ¬(c = '\n' ∨ c = '\r')) (h2 : col = target) (h3 : c ≠ '"') :
    cgcGo sz target (c :: t) col =
      some (trim_inplace (((c :: t).takeWhile (fun d => !fieldStop d)).take (sz - 1))) := by
  rw [cgcGo.eq_def]
  simp only [h1, h2, h3, if_false, if_true, if_neg, if_pos]

theorem cgcGo_adv_comma (c : Char) (t : Str) (col target sz : Nat)
    (h1 : ¬(c = '\n' ∨ c = '\r')) (h2 : ¬ col = target) (h3 : c ≠ '"')
    (r : Str) (hd : (c :: t).dropWhile (fun d => !fieldStop d) = ',' :: r) :
    cgcGo sz target (c :: t) col = cgcGo sz target r (col + 1) := by
  rw [cgcGo.eq_def]
  simp only [h1, h2, h3, if_false, if_true, if_neg, if_pos]
  rw [hd]
  simp

theorem cgcGo_adv_nil (c : Char) (t : Str) (col target sz : Nat)
    (h1 : ¬(c = '\n' ∨ c = '\r')) (h2 : ¬ col = target) (h3 : c ≠ '"')
    (hd : (c :: t).dropWhile (fun d => !fieldStop d) = []) :
    cgcGo sz target (c :: t) col = none := by
  rw [cgcGo.eq_def]
  simp only [h1, h2, h3, if_false, if_true, if_neg, if_pos]
  rw [hd]
  simp

/-- On quote-free, newline-free lines with no empty fields,
csv_get_column's walk extracts exactly the (target - col)-th remaining
strtok segment, trimmed and truncated to the buffer. -/
theorem cgcGo_plain :
    ∀ (n : Nat) (l : Str), l.length ≤ n → ∀ (col target sz : Nat),
      ('"' ∉ l) → ('\n' ∉ l) → ('\r' ∉ l) →
      (∀ f ∈ splitDelims l, f ≠ []) →
      col ≤ target →
      cgcGo sz target l col =
        ((splitDelims l).get? (target - col)).map
          (fun f => trim_inplace (f.take (sz - 1))) := by
  intro n
  induction n with
  | zero =>
      intro l hl col target sz hq hn hr hne hct
      have hnil : l = [] := List.length_eq_zero.mp (Nat.le_zero.mp hl)
      subst hnil
      exact absurd rfl (hne [] (by simp [splitDelims]))
  | succ n ih =>
      intro l hl col target sz hq hn hr hne hct
      cases l with
      | nil => exact absurd rfl (hne [] (by simp [splitDelims]))
      | cons c t =>
          have hcq : c ≠ '"' := fun h => hq (h ▸ List.mem_cons_self c t)
          have hcn2 : c ≠ '\n' := fun h => hn (h ▸ List.mem_cons_self c t)
          have hcr2 : c ≠ '\r' := fun h => hr (h ▸ List.mem_cons_self c t)
          have hcn : ¬ (c = '\n' ∨ c = '\r') := by
            intro h
            cases h with
            | inl h => exact hcn2 h
            | inr h => exact hcr2 h
          have hcc : c ≠ ',' := by
            intro h
            refine hne [] ?_ rfl
            subst h
            rw [splitDelims_cons, if_pos (by decide)]
            exact List.mem_cons_self [] _
          have hdec := splitDelims_decomp (c :: t)
          rw [← fieldStop_eq_strtokDelim] at hdec
          by_cases hcol : col = target
          · rw [cgcGo_extract c t col target sz hcn hcol hcq]
            rw [hdec]
            rw [hcol]
            simp only [Nat.sub_self, List.get?_cons_zero]
            rfl
          · cases hrd : (c :: t).dropWhile (fun d => !fieldStop d) with
            | nil =>
                rw [cgcGo_adv_nil c t col target sz hcn hcol hcq hrd]
                rw [hdec, hrd]
                have hk : ∃ k, target - col = k + 1 := ⟨target - col - 1, by omega⟩
                obtain ⟨k, hk⟩ := hk
                rw [hk]
                simp
            | cons d r =>
                have hdstop : fieldStop d = true := by
                  have := dropWhile_head_not (fun x => !fieldStop x) (c :: t) d r hrd
                  simpa using this
                have hdmem : d ∈ c :: t := by
                  have hsub := List.dropWhile_sublist (l := c :: t) (fun x => !fieldStop x)
                  rw [hrd] at hsub
                  exact List.Sublist.mem (List.mem_cons_self d r) hsub
                have hdc : d = ',' := by
                  unfold fieldStop at hdstop
                  have hd1 : d ≠ '\n' := fun h => hn (h ▸ hdmem)
                  have hd2 : d ≠ '\r' := fun h => hr (h ▸ hdmem)
                  simp [hd1, hd2] at hdstop
                  exact hdstop
                subst hdc
                rw [cgcGo_adv_comma c t col target sz hcn hcol hcq r hrd]
                rw [hrd] at hdec
                have hrlen : r.length ≤ n := by
                  have hsub := List.dropWhile_sublist (l := c :: t) (fun x => !fieldStop x)
                  rw [hrd] at hsub
                  have := List.Sublist.length_le hsub
                  simp only [List.length_cons] at this hl
                  omega
                have hrsub : ∀ x ∈ r, x ∈ c :: t := by
                  intro x hx
                  have hsub := List.dropWhile_sublist (l := c :: t) (fun y => !fieldStop y)
                  rw [hrd] at hsub
                  exact List.Sublist.mem (List.mem_cons_of_mem _ hx) hsub
                have hne2 : ∀ f ∈ splitDelims r, f ≠ [] := by
                  intro f hf
                  refine hne f ?_
                  rw [hdec]
                  exact List.mem_cons_of_mem _ hf
                have hmain := ih r hrlen (col + 1) target sz
                  (fun h => hq (hrsub _ h))
                  (fun h => hn (hrsub _ h))
                  (fun h => hr (hrsub _ h))
                  hne2 (by omega)
                rw [hmain, hdec]
                have hk : ∃ k, target - col = k + 1 := ⟨target - col - 1, by omega⟩
                obtain ⟨k, hk⟩ := hk
                rw [hk]
                have hk2 : target - (col + 1) = k := by omega
                rw [hk2]
                simp only [List.get?_cons_succ]

/-- The line `"x,y",a,b,c`: the quoted first field contains a comma. -/
def line2c : Str := ['"', 'x', ',', 'y', '"', ',', 'a', ',', 'b', ',', 'c']

/-- C2 counterexample: on a line with a quoted first field, the
builder's strtok extraction (which ignores quoting and splits at every
comma) returns `b` as the 4th field while the reader's quote-aware
csv_get_column returns `c` — the two extractions disagree. -/
theorem C2_counterexample_extractors_disagree :
    (strtok_col4 line2c).map limpiar_texto = some ['b'] ∧
    csv_get_column line2c 4 64 = some ['c'] ∧
    (some ['b'] : Option Str) ≠ some ['c'] := by
  refine ⟨by decide, ?_, by decide⟩
  simp [csv_get_column, line2c, cgcGo.eq_def, skipQuoted, quotedField, trim_inplace,
    dropLeadingSpace, dropTrailingSpace, fieldStop, c_isspace]

/-- C2 (amended): the builder's and the reader's extractions agree only
on restricted lines — no quote characters, no newline characters, no
whitespace, and no empty comma-separated fields, with the wanted field
shorter than the extraction buffer.  On such a line both return the 4th
comma-separated field; in general (quoting, doubled quotes, empty
fields) they diverge, since the builder's strtok ignores quoting
entirely and collapses empty fields. -/
theorem C2_amended_extractor_agreement :
    ∀ (l : Str) (sz : Nat) (f4 : Str),
      '"' ∉ l → '\n' ∉ l → '\r' ∉ l →
      (∀ f ∈ splitDelims l, f ≠ []) →
      (∀ c ∈ l, c_isspace c = false) →
      (splitDelims l).get? 3 = some f4 →
      f4.length < sz →
      csv_get_column l 4 sz = some f4 ∧
      (strtok_col4 l).map limpiar_texto = some f4 := by
  intro l sz f4 hq hn hr hne hsp h4 hlen
  have hf4mem : f4 ∈ splitDelims l := List.get?_mem h4
  have hf4q : '"' ∉ f4 := fun h => hq (splitDelims_mem_subset l f4 hf4mem '"' h)
  have hf4sp : ∀ c ∈ f4, c_isspace c = false :=
    fun c hc => hsp c (splitDelims_mem_subset l f4 hf4mem c hc)
  constructor
  · show cgcGo sz 4 l 1 = some f4
    rw [cgcGo_plain l.length l (le_refl _) 1 4 sz hq hn hr hne (by omega)]
    rw [show (4 - 1 : Nat) = 3 from rfl, h4]
    show some (trim_inplace (f4.take (sz - 1))) = some f4
    rw [List.take_all_of_le (by omega), trim_inplace_id f4 hf4sp]
  · unfold strtok_col4 strtok_tokens
    rw [List.filter_eq_self.mpr (fun a ha => by simpa using hne a ha)]
    rw [h4]
    show some (limpiar_texto f4) = some f4
    rw [limpiar_texto_id f4 hf4q hf4sp]

theorem C2_amended_extractor_agreement_witness :
    csv_get_column ['a', ',', 'b', ',', 'c', ',', 'd'] 4 64 = some ['d'] ∧
    (strtok_col4 ['a', ',', 'b', ',', 'c', ',', 'd']).map limpiar_texto = some ['d'] :=
  C2_amended_extractor_agreement ['a', ',', 'b', ',', 'c', ',', 'd'] 64 ['d']
    (by decide) (by decide) (by decide) (by decide) (by decide) (by decide) (by decide)
